import Mathlib

/-!
Verification of the travel-fx-calculator repository: a shallow embedding of
the rate-table extraction pipeline (`src/scripts/update_rates.py` and the
server side of `src/exchange_rate_calculator.py`) and of the client-side
cross-rate converter (the inline script of `src/exchange_rate_calculator.py`).

Numbers are modelled as exact rationals (`ℚ`); Python/JS floating point is
replaced by exact arithmetic, and display rounding (`toFixed`) is modelled as
exact round-half-up on rationals.  Strings are Lean `String`s, processed
through their character lists.
-/

set_option maxRecDepth 4000

namespace TravelFx

/-! ## String utilities

`leadsWith needle hay` is `True` iff `needle` is an initial segment of `hay`;
`listContains needle hay` models Python's `needle in hay` substring test.
-/

def leadsWith : List Char → List Char → Bool
  | [], _ => true
  | _ :: _, [] => false
  | a :: as, b :: bs => a == b && leadsWith as bs

def listContains (needle : List Char) : List Char → Bool
  | [] => needle.isEmpty
  | c :: rest => leadsWith needle (c :: rest) || listContains needle rest

/-- Substring containment on strings: models Python's `needle in hay`. -/
def strContains (hay needle : String) : Bool :=
  listContains needle.data hay.data

/-- Whitespace trim on both ends (models `str.strip()` / JS `trim()`). -/
def trimStr (s : String) : String :=
  String.mk (((s.data.dropWhile Char.isWhitespace).reverse.dropWhile Char.isWhitespace).reverse)

/-- Removal of every comma (models `.replace(",", "")` / `.replace(/,/g, "")`). -/
def stripCommas (s : String) : String :=
  String.mk (s.data.filter (fun c => c != ','))

/-- Split a character list at the first occurrence of `needle`, returning the
part before it and the part after it; `none` when `needle` does not occur. -/
def splitAtSub? (needle : List Char) : List Char → Option (List Char × List Char)
  | [] => if needle.isEmpty then some ([], []) else none
  | c :: rest =>
    if leadsWith needle (c :: rest) then
      some ([], (c :: rest).drop needle.length)
    else
      match splitAtSub? needle rest with
      | some (pre, post) => some (c :: pre, post)
      | none => none

/-! ## Row extractor

`iter_rows` embeds `_iter_rows` of `update_rates.py` (and the row scan of
`_parse_market_row` in `exchange_rate_calculator.py`): the regex
`<tr>\s*.*?</tr>` with DOTALL, applied with `finditer`.  Lazy matching means a
fragment runs from a literal `<tr>` to the first following `</tr>`, and
scanning resumes after the fragment, so a fragment never spans two rows. -/

def trOpen : List Char := "<tr>".data
def trClose : List Char := "</tr>".data

def iterRowsAux : Nat → List Char → List (List Char)
  | 0, _ => []
  | fuel + 1, s =>
    match splitAtSub? trOpen s with
    | none => []
    | some (_, afterOpen) =>
      match splitAtSub? trClose afterOpen with
      | none => []
      | some (mid, rest) => (trOpen ++ mid ++ trClose) :: iterRowsAux fuel rest

def iter_rows (html : String) : List String :=
  (iterRowsAux html.data.length html.data).map String.mk

/-! ## Cell extractor

Embeds the regex `<td[^>]*>\s*([^<]+?)\s*</td>` (DOTALL) used by
`_parse_row_numbers` in both files: a cell is a literal `<td`, a run of
non-`>` attribute characters, `>`, a nonempty run of non-`<` content
characters, and a literal `</td>`.  The lazy group together with the
surrounding `\s*` captures the content up to whitespace at either end; since
the caller immediately applies `strip()`, returning the full content run is
equivalent. -/

def tdOpen : List Char := "<td".data
def tdClose : List Char := "</td>".data

def tdAttempt (s : List Char) : Option (List Char × List Char) :=
  let afterName := s.drop 3
  let attrsSplit := afterName.span (fun c => c != '>')
  match attrsSplit.2 with
  | [] => none
  | _ :: afterGt =>
    let contentSplit := afterGt.span (fun c => c != '<')
    if contentSplit.1.isEmpty then none
    else if leadsWith tdClose contentSplit.2 then
      some (contentSplit.1, contentSplit.2.drop 5)
    else none

def extractCellsAux : Nat → List Char → List (List Char)
  | 0, _ => []
  | _ + 1, [] => []
  | fuel + 1, c :: rest =>
    if leadsWith tdOpen (c :: rest) then
      match tdAttempt (c :: rest) with
      | some (content, rem) => content :: extractCellsAux fuel rem
      | none => extractCellsAux fuel rest
    else extractCellsAux fuel rest

/-- All `<td ...>content</td>` cell contents of a row fragment, in order. -/
def extractCells (row : String) : List String :=
  (extractCellsAux (row.data.length + 1) row.data).map String.mk

/-! ## Decimal parsing

`parseDecimal?` models `float(cleaned)` (and JS `Number.parseFloat` on the
already-cleaned strings the calculator feeds it) on plain signed decimal
literals: an optional sign, digits, an optional decimal point, digits, with at
least one digit overall.  Exotic inputs accepted by Python's `float` (exponent
notation, `inf`, `nan`, underscores) never occur in this data and are not
modelled; on the decimal literals that do occur the value is exact. -/

def natFromDigits (l : List Char) : Nat :=
  l.foldl (fun acc c => 10 * acc + (c.toNat - 48)) 0

def parseUnsigned? (l : List Char) : Option ℚ :=
  let headSplit := l.span Char.isDigit
  match headSplit.2 with
  | [] => if headSplit.1.isEmpty then none else some (natFromDigits headSplit.1 : ℚ)
  | '.' :: frac =>
    if frac.all Char.isDigit && !(headSplit.1.isEmpty && frac.isEmpty) then
      some ((natFromDigits (headSplit.1 ++ frac) : ℚ) / 10 ^ frac.length)
    else none
  | _ => none

def parseDecimal? (s : String) : Option ℚ :=
  match s.data with
  | [] => none
  | c :: rest =>
    if c = '-' then (parseUnsigned? rest).map (fun q => -q)
    else if c = '+' then parseUnsigned? rest
    else parseUnsigned? (c :: rest)

/-! ## Row locator

`matchesRow` is the row test of `_find_row` (`update_rates.py`) and of
`_parse_market_row` (`exchange_rate_calculator.py`): the fragment must contain
the substring `marketindexCd=<market_code>` and the title marker
`class="tit"`.  Both functions return the first matching fragment and raise
with a message carrying the requested code when none matches; they are
modelled in `Except`. -/

def matchesRow (market_code row : String) : Bool :=
  strContains row ("marketindexCd=" ++ market_code) && strContains row "class=\"tit\""

def find_row (rows : List String) (market_code : String) : Except String String :=
  match rows.find? (fun row => matchesRow market_code row) with
  | some row => .ok row
  | none => .error ("Row not found: " ++ market_code)

def parse_market_row (html : String) (market_code : String) : Except String String :=
  match (iter_rows html).find? (fun row => matchesRow market_code row) with
  | some row => .ok row
  | none => .error ("환율 코드를 찾을 수 없습니다: " ++ market_code)

/-! ## Column parser

`parse_row_numbers` (identical in both files): extract the cell texts, strip
and de-comma each, skip empty and `"-"` placeholder cells, keep every cell
whose cleaned text parses as a decimal number. -/

def cleanCell (raw : String) : String :=
  stripCommas (trimStr raw)

def parse_row_numbers (row : String) : List ℚ :=
  (extractCells row).filterMap (fun raw =>
    let cleaned := cleanCell raw
    if cleaned = "" || cleaned = "-" then none
    else parseDecimal? cleaned)

/-! ## Rate table assembly

The five rate-type buckets of `rates_by_type` (`sale`, `buy`, `sell`, `send`,
`receive`); each bucket is an association list in insertion order, starting
from the definitional pivot entry `KRW ↦ 1.0`.  `CURRENCY_META` lists
`(code, market_code, source_unit)` in the dictionaries' insertion order. -/

inductive RateType
  | sale
  | buy
  | sell
  | send
  | receive
deriving DecidableEq, Repr

/-- Position of a rate type's value among the parsed numeric columns
(`cols[0], ..., cols[4]`). -/
def RateType.colIndex : RateType → Nat
  | .sale => 0
  | .buy => 1
  | .sell => 2
  | .send => 3
  | .receive => 4

structure RatesByType where
  sale : List (String × ℚ)
  buy : List (String × ℚ)
  sell : List (String × ℚ)
  send : List (String × ℚ)
  receive : List (String × ℚ)
deriving DecidableEq, Repr

def RatesByType.get : RatesByType → RateType → List (String × ℚ)
  | r, .sale => r.sale
  | r, .buy => r.buy
  | r, .sell => r.sell
  | r, .send => r.send
  | r, .receive => r.receive

/-- Initial table: every bucket holds exactly the pivot entry `KRW ↦ 1.0`. -/
def emptyRates : RatesByType :=
  ⟨[("KRW", 1)], [("KRW", 1)], [("KRW", 1)], [("KRW", 1)], [("KRW", 1)]⟩

def CURRENCY_META : List (String × Option String × ℚ) :=
  [ ("KRW", none, 1),
    ("USD", some "FX_USDKRW", 1),
    ("CNY", some "FX_CNYKRW", 1),
    ("PHP", some "FX_PHPKRW", 1),
    ("TWD", some "FX_TWDKRW", 1),
    ("JPY", some "FX_JPYKRW", 100),
    ("VND", some "FX_VNDKRW", 100),
    ("THB", some "FX_THBKRW", 1),
    ("EUR", some "FX_EURKRW", 1),
    ("AUD", some "FX_AUDKRW", 1) ]

/-- One loop iteration's bucket updates: `rates_by_type[t][code] = cols[i] / unit`
for the five buckets (the `code` key is fresh, so dict assignment is append). -/
def addCurrency (acc : RatesByType) (code : String) (cols : List ℚ) (unit : ℚ) : RatesByType :=
  ⟨ acc.sale ++ [(code, cols.getD 0 0 / unit)],
    acc.buy ++ [(code, cols.getD 1 0 / unit)],
    acc.sell ++ [(code, cols.getD 2 0 / unit)],
    acc.send ++ [(code, cols.getD 3 0 / unit)],
    acc.receive ++ [(code, cols.getD 4 0 / unit)] ⟩

/-- The per-currency loop shared by `fetch_naver_rates` and `fetch_snapshot`:
skip the pivot (no market code), locate the row, parse its numeric columns,
fail when fewer than 5 are recovered, otherwise normalize by the source unit
and extend all five buckets. -/
def buildRatesGo (rows : List String) :
    List (String × Option String × ℚ) → RatesByType → Except String RatesByType
  | [], acc => .ok acc
  | (_, none, _) :: rest, acc => buildRatesGo rows rest acc
  | (code, some market_code, unit) :: rest, acc =>
    (find_row rows market_code).bind fun row =>
      if (parse_row_numbers row).length < 5 then .error ("Not enough columns for " ++ code)
      else buildRatesGo rows rest (addCurrency acc code (parse_row_numbers row) unit)

def buildRates (rows : List String) : Except String RatesByType :=
  buildRatesGo rows CURRENCY_META emptyRates

/-- Rate-table core of `fetch_snapshot` / `fetch_naver_rates`, after the HTTP
fetch and lenient decode: split the document into row fragments and run the
all-or-nothing per-currency loop. -/
def fetch_core (html : String) : Except String RatesByType :=
  buildRates (iter_rows html)

/-! ## Client-side converter

Embedding of the inline-script functions of `exchange_rate_calculator.py`:
`convertAmount`, `cleanEditableNumberText`, `parseEditableNumber`,
`formatEditableNumberText`, `toInputValue`, `updateFrom`, and the
currency-select change listener.  The current rate table `r` (the selected
rate type's bucket, `currentRates()`) is passed as a function parameter. -/

/-- Cross-rate conversion via the KRW pivot: identity when the codes are
equal, otherwise `amount * r[fromCode] / r[toCode]`. -/
def convertAmount (r : String → ℚ) (amount : ℚ) (fromCode toCode : String) : ℚ :=
  if fromCode = toCode then amount
  else (amount * r fromCode) / r toCode

def digitChar : Nat → Char
  | 0 => '0'
  | 1 => '1'
  | 2 => '2'
  | 3 => '3'
  | 4 => '4'
  | 5 => '5'
  | 6 => '6'
  | 7 => '7'
  | 8 => '8'
  | 9 => '9'
  | _ + 10 => '0'

def natDigitsGo : Nat → Nat → List Char → List Char
  | 0, _, acc => acc
  | fuel + 1, n, acc =>
    if n < 10 then digitChar n :: acc
    else natDigitsGo fuel (n / 10) (digitChar (n % 10) :: acc)

/-- Decimal digit string of a natural number (the fuel `n + 1` always
suffices, see `natDigitsGo_eq`). -/
def natDigits (n : Nat) : List Char :=
  natDigitsGo (n + 1) n []

/-- Insert a comma every three characters counting from the right: the effect
of `replace(/\B(?=(\d{3})+(?!\d))/g, ",")` on a digit string. -/
def groupAux : List Char → List Char
  | a :: b :: c :: d :: rest => a :: b :: c :: ',' :: groupAux (d :: rest)
  | l => l

def groupDigits (l : List Char) : List Char :=
  (groupAux l.reverse).reverse

/-- Round to an integer count of hundredths, half up (models `toFixed(2)` on
the exact value). -/
def roundHundredths (q : ℚ) : ℤ :=
  ⌊q * 100 + 1 / 2⌋

/-- Default display format `toInputValue`: negatives (and non-finite values,
which cannot arise over `ℚ`) display as `"0.00"`; otherwise two fixed decimals
with comma grouping of the integer part. -/
def toInputValue (value : ℚ) : String :=
  if value < 0 then "0.00"
  else
    let m := (roundHundredths value).toNat
    String.mk (groupDigits (natDigits (m / 100)) ++
      '.' :: [digitChar (m % 100 / 10), digitChar (m % 100 % 10)])

/-- Suffix test on strings (models JS `endsWith`). -/
def strEndsWith (s suffix : String) : Bool :=
  leadsWith suffix.data.reverse s.data.reverse

/-- Test for the permissive in-progress format `^\d*\.?\d*$`: only digits and
at most one decimal point. -/
def decFormatOk (l : List Char) : Bool :=
  l.all (fun c => c.isDigit || c == '.') && Nat.ble (l.count '.') 1

/-- The raw-editable cleaner: strip commas, trim, reject strings containing a
minus sign or not matching the permissive decimal shape. -/
def cleanEditableNumberText (value : String) : String :=
  let cleaned := trimStr (stripCommas value)
  if cleaned = "" then ""
  else if cleaned.data.any (fun c => c == '-') then ""
  else if decFormatOk cleaned.data then cleaned
  else ""

structure ParsedNumber where
  empty : Bool
  cleaned : String
  number : ℚ
deriving DecidableEq, Repr

/-- `parseEditableNumber`: an empty cleaned string means "no value yet"; a
lone `"."` is normalized to `"0."`; the numeric value is clamped to `0` when
negative or unparseable. -/
def parseEditableNumber (value : String) : ParsedNumber :=
  let cleaned := cleanEditableNumberText value
  if cleaned = "" then ⟨true, "", 0⟩
  else
    let normalized := if cleaned = "." then "0." else cleaned
    let n := (parseDecimal? normalized).getD 0
    ⟨false, normalized, if 0 ≤ n then n else 0⟩

/-- Strip leading zeros that are followed by a digit (`^0+(?=\d)`). -/
def stripLeadZeros : List Char → List Char
  | '0' :: c :: rest => if c.isDigit then stripLeadZeros (c :: rest) else '0' :: c :: rest
  | l => l

/-- `formatEditableNumberText`: comma-group the integer part of an in-progress
decimal string, preserving a trailing decimal point. -/
def formatEditableNumberText (cleaned : String) : String :=
  if cleaned = "" then ""
  else
    let hasDot := cleaned.data.contains '.'
    let parts := cleaned.splitOn "."
    let intPart0 := parts.getD 0 ""
    let intPart1 := if intPart0 = "" then "0" else intPart0
    let intPart := String.mk (groupDigits (stripLeadZeros intPart1.data))
    if !hasDot then intPart
    else
      match parts[1]? with
      | none => intPart ++ "."
      | some fracPart => intPart ++ "." ++ fracPart

/-- One calculator row as seen by the propagation logic: its selected currency
code and its input text. -/
structure Field where
  code : String
  text : String
deriving DecidableEq, Repr

def mapFields (f : Nat → Field → Field) : List Field → Nat → List Field
  | [], _ => []
  | x :: xs, i => f i x :: mapFields f xs (i + 1)

/-- `updateFrom(index)`: recompute every other active field from the field at
`index`.  An out-of-range index changes nothing; an empty source clears every
other active field's text; otherwise the source is reformatted (keeping an
in-progress trailing dot) and each other active field receives the converted
amount in display format.  Fields beyond `activeCount` are untouched. -/
def updateFrom (r : String → ℚ) (fields : List Field) (activeCount index : Nat) : List Field :=
  match (fields.take activeCount)[index]? with
  | none => fields
  | some source =>
    let parsed := parseEditableNumber source.text
    if parsed.empty then
      mapFields (fun i f => if i < activeCount ∧ i ≠ index then ⟨f.code, ""⟩ else f) fields 0
    else
      let sourceFormatted :=
        if strEndsWith parsed.cleaned "." then formatEditableNumberText parsed.cleaned
        else toInputValue parsed.number
      mapFields (fun i f =>
        if activeCount ≤ i then f
        else if i = index then ⟨f.code, sourceFormatted⟩
        else ⟨f.code, toInputValue (convertAmount r parsed.number source.code f.code)⟩)
        fields 0

/-- The currency-select change listener: `oldCode` is the field's previous
code (the `prevCode` dataset value, which is initialized to the select's value
and refreshed on every change, hence equal to the pre-change code).  If the
changed field is the last-edited one, its amount is recomputed to preserve the
KRW-equivalent value and then propagated from it; otherwise propagation
re-runs from `min(lastEditedIndex, activeCount - 1)`. -/
def changeCurrency (r : String → ℚ) (fields : List Field)
    (activeCount lastEdited index : Nat) (newCode : String) : List Field :=
  match fields[index]? with
  | none => fields
  | some field =>
    let oldCode := field.code
    if index = lastEdited then
      let amountOld := (parseEditableNumber field.text).number
      let amountNew := amountOld * r oldCode / r newCode
      updateFrom r (fields.set index ⟨newCode, toInputValue amountNew⟩) activeCount index
    else
      updateFrom r (fields.set index ⟨newCode, field.text⟩) activeCount
        (min lastEdited (activeCount - 1))

/-! ## Fetch-side lemmas -/

theorem get_addCurrency (acc : RatesByType) (code : String) (cols : List ℚ) (unit : ℚ)
    (t : RateType) :
    (addCurrency acc code cols unit).get t =
      acc.get t ++ [(code, cols.getD t.colIndex 0 / unit)] := by
  cases t <;> rfl

/-- Success of the whole loop implies that every configured currency's row was
located and yielded at least five numeric columns. -/
theorem buildRatesGo_ok_locates {rows : List String}
    {meta : List (String × Option String × ℚ)} {acc rbt : RatesByType}
    (h : buildRatesGo rows meta acc = .ok rbt) :
    ∀ code m unit, (code, some m, unit) ∈ meta →
      ∃ row, find_row rows m = .ok row ∧ ¬ (parse_row_numbers row).length < 5 := by
  induction meta generalizing acc with
  | nil => intro code m unit hmem; exact absurd hmem (List.not_mem_nil _)
  | cons hd rest ih =>
    intro code m unit hmem
    obtain ⟨code', mo', unit'⟩ := hd
    rcases mo' with _ | m'
    · rcases List.mem_cons.mp hmem with heq | htail
      · exact absurd (congrArg (fun x => x.2.1) heq) (by simp)
      · exact ih (by simpa [buildRatesGo] using h) code m unit htail
    · simp only [buildRatesGo] at h
      rcases hrow : find_row rows m' with e | row
      · rw [hrow] at h
        exact Except.noConfusion h
      · rw [hrow] at h
        simp only [Except.bind] at h
        by_cases h5 : (parse_row_numbers row).length < 5
        · rw [if_pos h5] at h
          exact Except.noConfusion h
        · rw [if_neg h5] at h
          rcases List.mem_cons.mp hmem with heq | htail
          · obtain ⟨h1, h2, h3⟩ : code = code' ∧ some m = some m' ∧ unit = unit' := by
              simpa using heq
            injection h2 with h2
            subst h2
            exact ⟨row, hrow, h5⟩
          · exact ih h code m unit htail

/-- Contribution of one `CURRENCY_META` entry to bucket `t`. -/
def rowEntry (rows : List String) (t : RateType) :
    String × Option String × ℚ → Option (String × ℚ)
  | (code, mo, unit) =>
    mo.bind fun m =>
      (find_row rows m).toOption.bind fun row =>
        if (parse_row_numbers row).length < 5 then none
        else some (code, (parse_row_numbers row).getD t.colIndex 0 / unit)

/-- Bucket contents after a successful loop: the starting bucket extended, in
order, by one normalized entry per successfully processed configured
currency. -/
theorem buildRatesGo_get {rows : List String}
    {meta : List (String × Option String × ℚ)} {acc rbt : RatesByType}
    (h : buildRatesGo rows meta acc = .ok rbt) (t : RateType) :
    rbt.get t = acc.get t ++ meta.filterMap (rowEntry rows t) := by
  induction meta generalizing acc with
  | nil =>
    simp only [buildRatesGo] at h
    injection h with h
    simp [h]
  | cons hd rest ih =>
    obtain ⟨code', mo', unit'⟩ := hd
    rcases mo' with _ | m'
    · simp only [buildRatesGo] at h
      simpa [rowEntry] using ih h
    · simp only [buildRatesGo] at h
      rcases hrow : find_row rows m' with e | row
      · rw [hrow] at h
        exact Except.noConfusion h
      · rw [hrow] at h
        simp only [Except.bind] at h
        by_cases h5 : (parse_row_numbers row).length < 5
        · rw [if_pos h5] at h
          exact Except.noConfusion h
        · rw [if_neg h5] at h
          have hrec := ih h
          rw [get_addCurrency] at hrec
          rw [List.filterMap_cons]
          simp only [rowEntry, hrow, Except.toOption, Option.some_bind, if_neg h5]
          rw [hrec, List.append_assoc]
          rfl

/-- Configured currency codes of a meta list, in order. -/
def configuredOf (meta : List (String × Option String × ℚ)) : List String :=
  meta.filterMap (fun x => x.2.1.map (fun _ => x.1))

theorem mem_configuredOf {meta : List (String × Option String × ℚ)}
    {c m : String} {u : ℚ} (hmem : (c, some m, u) ∈ meta) : c ∈ configuredOf meta :=
  List.mem_filterMap.mpr ⟨(c, some m, u), hmem, rfl⟩

/-- Keys appended by the loop, bucket-independently: under success of every
configured lookup, they are exactly the configured codes in order. -/
theorem keys_filterMap_rowEntry {rows : List String}
    {meta : List (String × Option String × ℚ)}
    (hall : ∀ code m unit, (code, some m, unit) ∈ meta →
      ∃ row, find_row rows m = .ok row ∧ ¬ (parse_row_numbers row).length < 5)
    (t : RateType) :
    (meta.filterMap (rowEntry rows t)).map Prod.fst = configuredOf meta := by
  induction meta with
  | nil => rfl
  | cons hd rest ih =>
    obtain ⟨code', mo', unit'⟩ := hd
    have htail : ∀ code m unit, (code, some m, unit) ∈ rest →
        ∃ row, find_row rows m = .ok row ∧ ¬ (parse_row_numbers row).length < 5 :=
      fun code m unit hmem => hall code m unit (List.mem_cons_of_mem _ hmem)
    rcases mo' with _ | m'
    · simpa [rowEntry, configuredOf, List.filterMap_cons] using ih htail
    · obtain ⟨row, hrow, h5⟩ := hall code' m' unit' (List.mem_cons_self _ _)
      rw [List.filterMap_cons]
      simp only [rowEntry, hrow, Except.toOption, Option.some_bind, if_neg h5]
      rw [List.map_cons]
      have hcfg : configuredOf ((code', some m', unit') :: rest) = code' :: configuredOf rest := by
        simp [configuredOf, List.filterMap_cons]
      rw [hcfg]
      exact congrArg (code' :: ·) (ih htail)

/-- Value lookup in the appended entries: with distinct configured codes and
all lookups succeeding, a configured currency's entry is its own normalized
column value. -/
theorem lookup_filterMap_rowEntry {rows : List String}
    {meta : List (String × Option String × ℚ)}
    (hnd : (configuredOf meta).Nodup)
    (hall : ∀ code m unit, (code, some m, unit) ∈ meta →
      ∃ row, find_row rows m = .ok row ∧ ¬ (parse_row_numbers row).length < 5)
    {c m : String} {u : ℚ} (hmem : (c, some m, u) ∈ meta)
    {row : String} (hrow : find_row rows m = .ok row)
    (h5 : ¬ (parse_row_numbers row).length < 5) (t : RateType) :
    List.lookup c (meta.filterMap (rowEntry rows t)) =
      some ((parse_row_numbers row).getD t.colIndex 0 / u) := by
  induction meta with
  | nil => exact absurd hmem (List.not_mem_nil _)
  | cons hd rest ih =>
    obtain ⟨code', mo', unit'⟩ := hd
    have htail : ∀ code m unit, (code, some m, unit) ∈ rest →
        ∃ row, find_row rows m = .ok row ∧ ¬ (parse_row_numbers row).length < 5 :=
      fun code m unit hmem => hall code m unit (List.mem_cons_of_mem _ hmem)
    rcases List.mem_cons.mp hmem with heq | htail_mem
    · obtain ⟨h1, h2, h3⟩ : c = code' ∧ some m = mo' ∧ u = unit' := by
        simpa using heq
      subst h1
      subst h3
      subst h2
      rw [List.filterMap_cons]
      simp only [rowEntry, hrow, Except.toOption, Option.some_bind, if_neg h5]
      simp [List.lookup]
    · rcases mo' with _ | m'
      · have hnd' : (configuredOf rest).Nodup := by
          simpa [configuredOf, List.filterMap_cons] using hnd
        simpa [List.filterMap_cons, rowEntry] using ih hnd' htail htail_mem
      · obtain ⟨row', hrow', h5'⟩ := hall code' m' unit' (List.mem_cons_self _ _)
        have hcfg : configuredOf ((code', some m', unit') :: rest) = code' :: configuredOf rest := by
          simp [configuredOf, List.filterMap_cons]
        rw [hcfg] at hnd
        have hnotin : code' ∉ configuredOf rest := (List.nodup_cons.mp hnd).1
        have hcin : c ∈ configuredOf rest := mem_configuredOf htail_mem
        have hne : c ≠ code' := fun hcc => hnotin (hcc ▸ hcin)
        rw [List.filterMap_cons]
        simp only [rowEntry, hrow', Except.toOption, Option.some_bind, if_neg h5']
        have hbeq : (c == code') = false := beq_eq_false_iff_ne.mpr hne
        simp only [List.lookup, hbeq]
        exact ih (List.nodup_cons.mp hnd).2 htail htail_mem

/-! ## Converter-side lemmas -/

theorem getElem?_mapFields (f : Nat → Field → Field) :
    ∀ (l : List Field) (n i : Nat), (mapFields f l n)[i]? = (l[i]?).map (f (n + i)) := by
  intro l
  induction l with
  | nil => intro n i; simp [mapFields]
  | cons x xs ih =>
    intro n i
    cases i with
    | zero => simp [mapFields]
    | succ j =>
      have harith : n + 1 + j = n + (j + 1) := by omega
      simp only [mapFields, List.getElem?_cons_succ, ih (n + 1) j, harith]

/-- In the empty-source branch, every other active field's text is cleared
while its code is kept. -/
theorem updateFrom_empty_clears {r : String → ℚ} {fields : List Field}
    {a i : Nat} {src : Field}
    (hsrc : (fields.take a)[i]? = some src)
    (hempty : (parseEditableNumber src.text).empty = true)
    {j : Nat} {fj : Field} (hj : j < a) (hji : j ≠ i)
    (hfj : fields[j]? = some fj) :
    (updateFrom r fields a i)[j]? = some ⟨fj.code, ""⟩ := by
  simp only [updateFrom, hsrc, hempty, if_true]
  rw [getElem?_mapFields, hfj]
  simp only [Option.map_some']
  rw [if_pos ⟨by omega, fun h => hji (by omega)⟩]

/-- In the empty-source branch, the edited field itself and the inactive
fields are untouched. -/
theorem updateFrom_empty_keeps {r : String → ℚ} {fields : List Field}
    {a i : Nat} {src : Field}
    (hsrc : (fields.take a)[i]? = some src)
    (hempty : (parseEditableNumber src.text).empty = true)
    {j : Nat} (hj : j = i ∨ a ≤ j) :
    (updateFrom r fields a i)[j]? = fields[j]? := by
  simp only [updateFrom, hsrc, hempty, if_true]
  rw [getElem?_mapFields]
  rcases hfj : fields[j]? with _ | fj
  · rfl
  · have hcond : ¬ (0 + j < a ∧ 0 + j ≠ i) := by
      rintro ⟨hlt, hne⟩
      rcases hj with rfl | hj2
      · exact hne (by omega)
      · omega
    simp only [Option.map_some']
    rw [if_neg hcond]

/-- In the non-empty branch, each other active field receives the converted
source amount in display format, keeping its code. -/
theorem updateFrom_converts {r : String → ℚ} {fields : List Field}
    {a i : Nat} {src : Field}
    (hsrc : (fields.take a)[i]? = some src)
    (hempty : (parseEditableNumber src.text).empty = false)
    {j : Nat} {fj : Field} (hj : j < a) (hji : j ≠ i)
    (hfj : fields[j]? = some fj) :
    (updateFrom r fields a i)[j]? = some ⟨fj.code,
      toInputValue (convertAmount r (parseEditableNumber src.text).number src.code fj.code)⟩ := by
  simp only [updateFrom, hsrc, hempty, Bool.false_eq_true, if_false]
  rw [getElem?_mapFields, hfj]
  simp only [Option.map_some']
  rw [if_neg (by omega : ¬ a ≤ 0 + j), if_neg (fun h => hji (by omega))]

/-- In the non-empty branch, the source field's text is reformatted in place:
an in-progress trailing dot keeps the permissive format, otherwise the
computed display format is used. -/
theorem updateFrom_source_text {r : String → ℚ} {fields : List Field}
    {a i : Nat} {src : Field}
    (hsrc : (fields.take a)[i]? = some src)
    (hempty : (parseEditableNumber src.text).empty = false) :
    (updateFrom r fields a i)[i]? = some ⟨src.code,
      if strEndsWith (parseEditableNumber src.text).cleaned "."
      then formatEditableNumberText (parseEditableNumber src.text).cleaned
      else toInputValue (parseEditableNumber src.text).number⟩ := by
  have hia : i < a := by
    by_contra hia
    rw [List.getElem?_take] at hsrc
    rw [if_neg hia] at hsrc
    exact Option.noConfusion hsrc
  have hfi : fields[i]? = some src := by
    rw [List.getElem?_take, if_pos hia] at hsrc
    exact hsrc
  simp only [updateFrom, hsrc, hempty, Bool.false_eq_true, if_false]
  rw [getElem?_mapFields, hfi]
  simp only [Option.map_some']
  rw [if_neg (by omega : ¬ a ≤ 0 + i), if_pos (by omega : 0 + i = i)]

/-! ## Digit and formatting lemmas

These establish that the display format produced by `toInputValue` parses back
through `parseEditableNumber` to the displayed (hundredth-rounded) value, so
that a propagation pass reformatting a just-written display string leaves it
unchanged. -/

theorem digitChar_toNat {d : Nat} (h : d < 10) : (digitChar d).toNat = 48 + d := by
  interval_cases d <;> rfl

theorem isDigit_digitChar {d : Nat} (h : d < 10) : (digitChar d).isDigit = true := by
  interval_cases d <;> rfl

theorem digit_ne_beq {c a : Char} (hc : c.isDigit = true) (ha : a.isDigit = false) :
    (c == a) = false := by
  cases hbeq : c == a
  · rfl
  · exact absurd (beq_iff_eq.mp hbeq ▸ hc) (by simp [ha])

theorem digit_not_ws {c : Char} (hc : c.isDigit = true) : c.isWhitespace = false := by
  cases hw : c.isWhitespace
  · rfl
  · simp only [Char.isWhitespace] at hw
    rcases Bool.or_eq_true_iff.mp hw with h | h
    · rcases Bool.or_eq_true_iff.mp h with h | h
      · rcases Bool.or_eq_true_iff.mp h with h | h <;>
          first
          | (rw [decide_eq_true_iff.mp h] at hc; exact absurd hc (by decide))
      · rw [decide_eq_true_iff.mp h] at hc; exact absurd hc (by decide)
    · rw [decide_eq_true_iff.mp h] at hc; exact absurd hc (by decide)

theorem natDigitsGo_eq (n : Nat) :
    ∀ fuel acc, n < fuel → natDigitsGo fuel n acc = natDigits n ++ acc := by
  induction n using Nat.strong_induction_on with
  | _ n ih =>
    intro fuel acc hfuel
    cases fuel with
    | zero => omega
    | succ f =>
      by_cases h : n < 10
      · rw [natDigitsGo, if_pos h, natDigits, natDigitsGo, if_pos h]
        rfl
      · have hdiv : n / 10 < n := Nat.div_lt_self (by omega) (by omega)
        have e1 : natDigitsGo (f + 1) n acc =
            natDigits (n / 10) ++ digitChar (n % 10) :: acc := by
          rw [natDigitsGo, if_neg h, ih (n / 10) hdiv f _ (by omega)]
        have e2 : natDigits n = natDigits (n / 10) ++ [digitChar (n % 10)] := by
          rw [natDigits, natDigitsGo, if_neg h, ih (n / 10) hdiv n _ (by omega)]
        rw [e1, e2, List.append_assoc]
        rfl

theorem natDigits_lt {n : Nat} (h : n < 10) : natDigits n = [digitChar n] := by
  rw [natDigits, natDigitsGo, if_pos h]

theorem natDigits_ge {n : Nat} (h : ¬ n < 10) :
    natDigits n = natDigits (n / 10) ++ [digitChar (n % 10)] := by
  rw [natDigits, natDigitsGo, if_neg h,
    natDigitsGo_eq (n / 10) n _ (Nat.div_lt_self (by omega) (by omega))]

theorem foldl_digits_shift (l : List Char) :
    ∀ a : Nat, l.foldl (fun acc c => 10 * acc + (c.toNat - 48)) a =
      a * 10 ^ l.length + natFromDigits l := by
  induction l with
  | nil => intro a; simp [natFromDigits]
  | cons c cs ih =>
    intro a
    rw [natFromDigits]
    simp only [List.foldl_cons, List.length_cons]
    rw [ih (10 * a + (c.toNat - 48)), ih (10 * 0 + (c.toNat - 48))]
    ring

theorem natFromDigits_append (l1 l2 : List Char) :
    natFromDigits (l1 ++ l2) = natFromDigits l1 * 10 ^ l2.length + natFromDigits l2 := by
  rw [natFromDigits, List.foldl_append, foldl_digits_shift]
  rfl

theorem natFromDigits_natDigits (n : Nat) : natFromDigits (natDigits n) = n := by
  induction n using Nat.strong_induction_on with
  | _ n ih =>
    by_cases h : n < 10
    · rw [natDigits_lt h, natFromDigits]
      simp [digitChar_toNat h]
    · have hlt : n / 10 < n := Nat.div_lt_self (by omega) (by omega)
      rw [natDigits_ge h, natFromDigits_append, ih (n / 10) hlt]
      have h10 : n % 10 < 10 := Nat.mod_lt _ (by omega)
      have : natFromDigits [digitChar (n % 10)] = n % 10 := by
        rw [natFromDigits]
        simp [digitChar_toNat h10]
      rw [this]
      simp only [List.length_cons, List.length_nil]
      omega

theorem natDigits_digit (n : Nat) : ∀ c ∈ natDigits n, c.isDigit = true := by
  induction n using Nat.strong_induction_on with
  | _ n ih =>
    by_cases h : n < 10
    · rw [natDigits_lt h]
      intro c hc
      rw [List.mem_singleton.mp hc]
      exact isDigit_digitChar h
    · have hlt : n / 10 < n := Nat.div_lt_self (by omega) (by omega)
      rw [natDigits_ge h]
      intro c hc
      rcases List.mem_append.mp hc with hc | hc
      · exact ih (n / 10) hlt c hc
      · rw [List.mem_singleton.mp hc]
        exact isDigit_digitChar (Nat.mod_lt _ (by omega))

theorem natDigits_ne_nil (n : Nat) : natDigits n ≠ [] := by
  by_cases h : n < 10
  · rw [natDigits_lt h]; simp
  · rw [natDigits_ge h]; simp

theorem filter_groupAux :
    ∀ l : List Char, (∀ c ∈ l, (c != ',') = true) →
      (groupAux l).filter (fun c => c != ',') = l := by
  have key : ∀ n (l : List Char), l.length ≤ n → (∀ c ∈ l, (c != ',') = true) →
      (groupAux l).filter (fun c => c != ',') = l := by
    intro n
    induction n with
    | zero =>
      intro l hlen hl
      have hnil : l = [] := List.length_eq_zero.mp (by omega)
      subst hnil
      rfl
    | succ n ih =>
      intro l hlen hl
      rcases l with _ | ⟨a, _ | ⟨b, _ | ⟨c, _ | ⟨d, rest⟩⟩⟩⟩
      · rfl
      · simp [groupAux, List.filter_cons, hl a (by simp)]
      · simp [groupAux, List.filter_cons, hl a (by simp), hl b (by simp)]
      · simp [groupAux, List.filter_cons, hl a (by simp), hl b (by simp), hl c (by simp)]
      · have hrec := ih (d :: rest) (by simp at hlen ⊢; omega)
          (fun x hx => hl x (by simp at hx ⊢; tauto))
        simp only [groupAux, List.filter_cons, hl a (by simp), hl b (by simp), hl c (by simp),
          hrec]
        norm_num
  exact fun l => key l.length l le_rfl

theorem filter_groupDigits (l : List Char) (hl : ∀ c ∈ l, (c != ',') = true) :
    (groupDigits l).filter (fun c => c != ',') = l := by
  rw [groupDigits, List.filter_reverse, filter_groupAux l.reverse
    (fun c hc => hl c (List.mem_reverse.mp hc)), List.reverse_reverse]

theorem dropWhile_eq_self_of_forall {p : Char → Bool} :
    ∀ l : List Char, (∀ c ∈ l, p c = false) → l.dropWhile p = l := by
  intro l h
  cases l with
  | nil => rfl
  | cons c cs => simp [List.dropWhile_cons, h c (by simp)]

theorem trimStr_no_ws (l : List Char) (h : ∀ c ∈ l, c.isWhitespace = false) :
    trimStr (String.mk l) = String.mk l := by
  rw [trimStr]
  show String.mk (((l.dropWhile Char.isWhitespace).reverse.dropWhile Char.isWhitespace).reverse)
    = String.mk l
  rw [dropWhile_eq_self_of_forall l h,
    dropWhile_eq_self_of_forall l.reverse (fun c hc => h c (List.mem_reverse.mp hc)),
    List.reverse_reverse]

theorem takeWhile_append_stop {p : Char → Bool} :
    ∀ l1 : List Char, (∀ x ∈ l1, p x = true) → ∀ {c : Char}, p c = false → ∀ l2,
      (l1 ++ c :: l2).takeWhile p = l1 := by
  intro l1
  induction l1 with
  | nil => intro _ c hc l2; simp [List.takeWhile_cons, hc]
  | cons a l1' ih =>
    intro h1 c hc l2
    simp only [List.cons_append, List.takeWhile_cons, h1 a (by simp), if_true]
    rw [ih (fun x hx => h1 x (by simp [hx])) hc l2]

theorem dropWhile_append_stop {p : Char → Bool} :
    ∀ l1 : List Char, (∀ x ∈ l1, p x = true) → ∀ {c : Char}, p c = false → ∀ l2,
      (l1 ++ c :: l2).dropWhile p = c :: l2 := by
  intro l1
  induction l1 with
  | nil => intro _ c hc l2; simp [List.dropWhile_cons, hc]
  | cons a l1' ih =>
    intro h1 c hc l2
    simp only [List.cons_append, List.dropWhile_cons, h1 a (by simp), if_true]
    rw [ih (fun x hx => h1 x (by simp [hx])) hc l2]

theorem digit_bne {c a : Char} (hc : c.isDigit = true) (ha : a.isDigit = false) :
    (c != a) = true := by
  simp [bne, digit_ne_beq hc ha]

theorem ne_digit_beq {c a : Char} (hc : c.isDigit = true) (ha : a.isDigit = false) :
    (a == c) = false := by
  cases hbeq : a == c
  · rfl
  · have heq : a = c := beq_iff_eq.mp hbeq
    rw [heq, hc] at ha
    exact absurd ha (by simp)

theorem strmk_ne_empty {l : List Char} (h : l ≠ []) : String.mk l ≠ "" :=
  fun hcontra => h (congrArg String.data hcontra)

/-- The displayed value of `toInputValue`: the exact value rounded half-up to
hundredths (clamped to `0` for negatives). -/
def displayRound (x : ℚ) : ℚ :=
  ((roundHundredths x).toNat : ℚ) / 100

/-- The cleaner recovers the comma-free text of a well-formed decimal display
string. -/
theorem cleanEditable_spec {L L' : List Char}
    (hfilter : L.filter (fun c => c != ',') = L')
    (hne : L' ≠ [])
    (hws : ∀ c ∈ L', c.isWhitespace = false)
    (hminus : L'.any (fun c => c == '-') = false)
    (hfmt : decFormatOk L' = true) :
    cleanEditableNumberText (String.mk L) = String.mk L' := by
  have hstrip : stripCommas (String.mk L) = String.mk L' := by
    rw [stripCommas]
    exact congrArg String.mk hfilter
  have htrim : trimStr (stripCommas (String.mk L)) = String.mk L' := by
    rw [hstrip]
    exact trimStr_no_ws L' hws
  simp only [cleanEditableNumberText, htrim]
  rw [if_neg (strmk_ne_empty hne)]
  rw [hminus, hfmt]
  simp

/-- The unsigned decimal parser on a digits-dot-digits character list. -/
theorem parseUnsigned_append_dot (dl frac : List Char)
    (hdl : ∀ c ∈ dl, c.isDigit = true) (hfrac : ∀ c ∈ frac, c.isDigit = true)
    (hne : ¬ (dl = [] ∧ frac = [])) :
    parseUnsigned? (dl ++ '.' :: frac) =
      some ((natFromDigits (dl ++ frac) : ℚ) / 10 ^ frac.length) := by
  have hspan : (dl ++ '.' :: frac).span Char.isDigit = (dl, '.' :: frac) := by
    rw [List.span_eq_take_drop]
    rw [takeWhile_append_stop dl hdl (by decide) frac,
      dropWhile_append_stop dl hdl (by decide) frac]
  rw [parseUnsigned?]
  simp only [hspan]
  have hcond : (frac.all Char.isDigit && !(dl.isEmpty && frac.isEmpty)) = true := by
    rw [List.all_eq_true.mpr hfrac]
    have : (dl.isEmpty && frac.isEmpty) = false := by
      cases dl with
      | nil =>
        cases frac with
        | nil => exact absurd ⟨rfl, rfl⟩ hne
        | cons _ _ => rfl
      | cons _ _ => rfl
    rw [this]
    rfl
  rw [hcond]
  rfl

/-- The signed parser defers to the unsigned parser when the first character
is a digit. -/
theorem parseDecimal_digit_head {c : Char} (hc : c.isDigit = true) (rest : List Char) :
    parseDecimal? (String.mk (c :: rest)) = parseUnsigned? (c :: rest) := by
  have hminus : ¬ c = '-' := fun hcc => absurd (hcc ▸ hc) (by decide)
  have hplus : ¬ c = '+' := fun hcc => absurd (hcc ▸ hc) (by decide)
  rw [parseDecimal?]
  simp only [if_neg hminus, if_neg hplus]

/-- Parsing a raw display string `ddd,ddd.dd` produced for the hundredth count
`m`: not empty, cleaned to the comma-free text, value `m / 100`. -/
theorem parseEditableNumber_display (m : Nat) :
    parseEditableNumber (String.mk (groupDigits (natDigits (m / 100)) ++
        '.' :: [digitChar (m % 100 / 10), digitChar (m % 100 % 10)])) =
      ⟨false, String.mk (natDigits (m / 100) ++
        '.' :: [digitChar (m % 100 / 10), digitChar (m % 100 % 10)]), (m : ℚ) / 100⟩ := by
  have hd1 : m % 100 / 10 < 10 := by omega
  have hd2 : m % 100 % 10 < 10 := by omega
  have hdl : ∀ c ∈ natDigits (m / 100), c.isDigit = true := natDigits_digit _
  have hd1dig : (digitChar (m % 100 / 10)).isDigit = true := isDigit_digitChar hd1
  have hd2dig : (digitChar (m % 100 % 10)).isDigit = true := isDigit_digitChar hd2
  set dl := natDigits (m / 100) with hdl_def
  set d1 := digitChar (m % 100 / 10) with hd1_def
  set d2 := digitChar (m % 100 % 10) with hd2_def
  have hmem : ∀ c ∈ dl ++ '.' :: [d1, d2], c.isDigit = true ∨ c = '.' := by
    intro c hc
    rcases List.mem_append.mp hc with hc | hc
    · exact Or.inl (hdl c hc)
    · simp only [List.mem_cons, List.mem_singleton, List.not_mem_nil, or_false] at hc
      rcases hc with rfl | rfl | rfl
      · exact Or.inr rfl
      · exact Or.inl hd1dig
      · exact Or.inl hd2dig
  have hfilter : (groupDigits dl ++ '.' :: [d1, d2]).filter (fun c => c != ',') =
      dl ++ '.' :: [d1, d2] := by
    rw [List.filter_append]
    rw [filter_groupDigits dl (fun c hc => digit_bne (hdl c hc) (by decide))]
    have : ('.' :: [d1, d2]).filter (fun c => c != ',') = '.' :: [d1, d2] := by
      simp only [List.filter_cons]
      rw [show (('.' : Char) != ',') = true by decide,
        digit_bne hd1dig (by decide), digit_bne hd2dig (by decide)]
      simp
    rw [this]
  have hclean : cleanEditableNumberText (String.mk (groupDigits dl ++ '.' :: [d1, d2])) =
      String.mk (dl ++ '.' :: [d1, d2]) := by
    apply cleanEditable_spec hfilter
    · simp
    · intro c hc
      rcases hmem c hc with hdig | hdot
      · exact digit_not_ws hdig
      · rw [hdot]; rfl
    · rw [List.any_eq_false]
      intro c hc
      rcases hmem c hc with hdig | hdot
      · rw [digit_ne_beq hdig (by decide)]; simp
      · rw [hdot]; decide
    · rw [decFormatOk]
      have hall : (dl ++ '.' :: [d1, d2]).all (fun c => c.isDigit || c == '.') = true := by
        rw [List.all_eq_true]
        intro c hc
        rcases hmem c hc with hdig | hdot
        · rw [hdig]; rfl
        · rw [hdot]; rfl
      have hcount : (dl ++ '.' :: [d1, d2]).count '.' = 1 := by
        rw [List.count_append]
        have h0 : dl.count '.' = 0 := by
          rw [List.count_eq_zero]
          intro hdot
          exact absurd (hdl '.' hdot) (by decide)
        have h1 : ('.' :: [d1, d2]).count '.' = 1 := by
          rw [List.count_cons, List.count_cons, List.count_cons]
          rw [digit_ne_beq hd1dig (by decide), digit_ne_beq hd2dig (by decide)]
          simp
        rw [h0, h1]
      rw [hall, hcount]
      rfl
  rw [parseEditableNumber]
  simp only [hclean]
  rw [if_neg (strmk_ne_empty (by simp))]
  have hdot_ne : String.mk (dl ++ '.' :: [d1, d2]) ≠ "." := by
    intro hcontra
    have hlen := congrArg (fun s : String => s.data.length) hcontra
    have hpos : 0 < dl.length := List.length_pos.mpr (by
      rw [hdl_def]; exact natDigits_ne_nil (m / 100))
    simp only [List.length_append, List.length_cons, List.length_nil] at hlen
    omega
  rw [if_neg hdot_ne]
  obtain ⟨c, dl', hcons⟩ := List.exists_cons_of_ne_nil (natDigits_ne_nil (m / 100))
  rw [hdl_def, hcons]
  have hcdig : c.isDigit = true := by
    rw [hdl_def] at hdl
    exact hdl c (by rw [hcons]; simp)
  have hdl' : ∀ x ∈ c :: dl', x.isDigit = true := by
    rw [hdl_def] at hdl
    rw [hcons] at hdl
    exact hdl
  rw [List.cons_append, parseDecimal_digit_head hcdig]
  have hfr : ∀ x ∈ ([d1, d2] : List Char), x.isDigit = true := by
    intro x hx
    simp only [List.mem_cons, List.mem_singleton, List.not_mem_nil, or_false] at hx
    rcases hx with rfl | rfl
    · exact hd1dig
    · exact hd2dig
  have hvalue : natFromDigits ((c :: dl') ++ [d1, d2]) = m := by
    rw [natFromDigits_append]
    have hnf1 : natFromDigits (c :: dl') = m / 100 := by
      rw [← hcons]
      exact natFromDigits_natDigits (m / 100)
    have hnf2 : natFromDigits [d1, d2] = m % 100 := by
      rw [natFromDigits]
      simp only [List.foldl_cons, List.foldl_nil]
      rw [hd1_def, hd2_def, digitChar_toNat hd1, digitChar_toNat hd2]
      omega
    rw [hnf1, hnf2]
    simp only [List.length_cons, List.length_nil]
    omega
  have hpu := parseUnsigned_append_dot (c :: dl') [d1, d2] hdl' hfr (by simp)
  rw [hvalue] at hpu
  simp only [List.length_cons, List.length_nil] at hpu
  rw [List.cons_append] at hpu
  rw [hpu]
  simp only [Option.getD_some]
  rw [if_pos (by positivity : (0 : ℚ) ≤ (m : ℚ) / 10 ^ (0 + 1 + 1))]
  norm_num

theorem roundHundredths_toNat_neg {x : ℚ} (hx : x < 0) : (roundHundredths x).toNat = 0 := by
  have h1 : roundHundredths x < 1 := by
    rw [roundHundredths, Int.floor_lt]
    push_cast
    nlinarith
  omega

theorem toInputValue_neg {x : ℚ} (hx : x < 0) : toInputValue x = "0.00" := by
  rw [toInputValue, if_pos hx]

/-- Parsing back a display string: never empty, value is the displayed
hundredth-rounded amount, and the cleaned text never ends in a dot. -/
theorem parseEditableNumber_toInputValue (x : ℚ) :
    parseEditableNumber (toInputValue x) =
      ⟨false, String.mk (natDigits ((roundHundredths x).toNat / 100) ++ '.' ::
        [digitChar ((roundHundredths x).toNat % 100 / 10),
         digitChar ((roundHundredths x).toNat % 100 % 10)]), displayRound x⟩ := by
  by_cases hx : x < 0
  · have hm := roundHundredths_toNat_neg hx
    rw [toInputValue_neg hx, displayRound, hm]
    with_unfolding_all decide
  · have h := parseEditableNumber_display ((roundHundredths x).toNat)
    rw [toInputValue, if_neg hx]
    exact h

theorem strEndsWith_display_false (m : Nat) :
    strEndsWith (String.mk (natDigits (m / 100) ++ '.' ::
      [digitChar (m % 100 / 10), digitChar (m % 100 % 10)])) "." = false := by
  rw [strEndsWith]
  show leadsWith ['.'] ((natDigits (m / 100) ++ '.' ::
    [digitChar (m % 100 / 10), digitChar (m % 100 % 10)]).reverse) = false
  have hrev : (natDigits (m / 100) ++ '.' ::
      [digitChar (m % 100 / 10), digitChar (m % 100 % 10)]).reverse =
      digitChar (m % 100 % 10) :: digitChar (m % 100 / 10) :: '.' ::
        (natDigits (m / 100)).reverse := by
    simp
  rw [hrev]
  have hd2 : (digitChar (m % 100 % 10)).isDigit = true := isDigit_digitChar (by omega)
  simp only [leadsWith]
  rw [@ne_digit_beq (digitChar (m % 100 % 10)) '.' hd2 (by decide)]
  rfl

/-- Combined facts used by the propagation theorems. -/
theorem parse_display_facts (x : ℚ) :
    (parseEditableNumber (toInputValue x)).empty = false ∧
    (parseEditableNumber (toInputValue x)).number = displayRound x ∧
    strEndsWith (parseEditableNumber (toInputValue x)).cleaned "." = false := by
  rw [parseEditableNumber_toInputValue]
  exact ⟨rfl, rfl, strEndsWith_display_false _⟩

theorem roundHundredths_displayRound (x : ℚ) :
    roundHundredths (displayRound x) = ((roundHundredths x).toNat : ℤ) := by
  rw [displayRound, roundHundredths]
  have hmul : ((roundHundredths x).toNat : ℚ) / 100 * 100 =
      ((roundHundredths x).toNat : ℚ) := by
    field_simp
  rw [hmul, Int.floor_eq_iff]
  constructor
  · push_cast
    linarith
  · push_cast
    linarith

/-- Reformatting the displayed value reproduces the same display string
(`toFixed` is idempotent on its own output). -/
theorem toInputValue_displayRound (x : ℚ) :
    toInputValue (displayRound x) = toInputValue x := by
  by_cases hx : x < 0
  · have hm := roundHundredths_toNat_neg hx
    rw [toInputValue_neg hx, displayRound, hm]
    with_unfolding_all decide
  · have hnn : ¬ displayRound x < 0 := by
      refine not_lt.mpr ?_
      rw [displayRound]
      positivity
    rw [toInputValue, if_neg hnn, roundHundredths_displayRound, Int.toNat_natCast]
    rw [toInputValue, if_neg hx]

/-! ## Sample data for concrete witnesses

`sampleRates` is a concrete rate bucket (the `sale` rates of the spec's
scenarios); `sampleRows` is a concrete row-fragment document carrying all nine
configured market codes, with the spec's scenario values for USD and JPY. -/

def sampleRates : String → ℚ := fun c =>
  if c = "USD" then 1350 else if c = "EUR" then 1500 else if c = "KRW" then 1 else 0

def sampleRows : List String :=
  [ "<tr><td class=\"tit\">marketindexCd=FX_USDKRW</td><td>1,350.00</td><td>1,360.00</td><td>1,340.00</td><td>1,345.00</td><td>1,355.00</td></tr>"
  , "<tr><td class=\"tit\">marketindexCd=FX_CNYKRW</td><td>190.10</td><td>199.60</td><td>180.60</td><td>192.00</td><td>188.20</td></tr>"
  , "<tr><td class=\"tit\">marketindexCd=FX_PHPKRW</td><td>24.10</td><td>26.50</td><td>21.70</td><td>24.30</td><td>23.90</td></tr>"
  , "<tr><td class=\"tit\">marketindexCd=FX_TWDKRW</td><td>43.20</td><td>46.40</td><td>40.00</td><td>43.60</td><td>42.80</td></tr>"
  , "<tr><td class=\"tit\">marketindexCd=FX_JPYKRW</td><td>900.00</td><td>905.00</td><td>895.00</td><td>897.00</td><td>903.00</td></tr>"
  , "<tr><td class=\"tit\">marketindexCd=FX_VNDKRW</td><td>5.30</td><td>5.83</td><td>4.77</td><td>5.35</td><td>5.25</td></tr>"
  , "<tr><td class=\"tit\">marketindexCd=FX_THBKRW</td><td>39.50</td><td>41.40</td><td>37.60</td><td>39.80</td><td>39.20</td></tr>"
  , "<tr><td class=\"tit\">marketindexCd=FX_EURKRW</td><td>1,500.00</td><td>1,529.00</td><td>1,471.00</td><td>1,515.00</td><td>1,485.00</td></tr>"
  , "<tr><td class=\"tit\">marketindexCd=FX_AUDKRW</td><td>880.00</td><td>897.30</td><td>862.70</td><td>888.80</td><td>871.20</td></tr>" ]

/-- The rate table fetched from `sampleRows` (see `sampleRbt_ok`). -/
def sampleRbt : RatesByType :=
  (buildRates sampleRows).toOption.getD emptyRates

theorem sampleRbt_ok : buildRates sampleRows = .ok sampleRbt := by
  with_unfolding_all rfl

/-! ## Claim theorems -/

/-- C1: `convertAmount` is the identity when source and target codes agree
(for every amount, hence `0 ↦ 0`), and otherwise equals
`amount * r[fromCode] / r[toCode]` — the amount is routed through the
KRW-equivalent pivot (`r` is the selected rate type's bucket, so the
quantification over `r` covers every rate type).  In the spec's scenario (mid
rate `sale`: 1 USD = 1350 KRW), 100 USD converts to exactly 135000 KRW. -/
theorem convertAmount_spec (r : String → ℚ) (A B : String) (x : ℚ) :
    convertAmount r x A A = x ∧
    (A ≠ B → convertAmount r x A B = x * r A / r B) ∧
    convertAmount sampleRates 100 "USD" "KRW" = 135000 := by
  refine ⟨?_, ?_, ?_⟩
  · rw [convertAmount, if_pos rfl]
  · intro hne
    rw [convertAmount, if_neg hne]
  · norm_num +decide [convertAmount, sampleRates]

theorem convertAmount_spec_witness :
    ("USD" : String) ≠ "KRW" ∧
    convertAmount sampleRates 100 "USD" "KRW" =
      100 * sampleRates "USD" / sampleRates "KRW" :=
  ⟨by decide, (convertAmount_spec sampleRates "USD" "KRW" 100).2.1 (by decide)⟩

/-- C2: the round-trip law.  Over exact rational arithmetic,
`convert(convert(x, A, B), B, A) = x` exactly whenever both rates are
positive (hence nonzero); floating-point tolerance is not needed in the exact
model.  Nothing is claimed when a rate is non-positive. -/
theorem convertAmount_round_trip (r : String → ℚ) (A B : String) (x : ℚ)
    (hA : 0 < r A) (hB : 0 < r B) :
    convertAmount r (convertAmount r x A B) B A = x := by
  by_cases hAB : A = B
  · subst hAB
    rw [convertAmount, if_pos rfl, convertAmount, if_pos rfl]
  · rw [convertAmount, if_neg (show ¬ B = A from fun h => hAB h.symm),
      convertAmount, if_neg hAB]
    have hA' : r A ≠ 0 := hA.ne'
    have hB' : r B ≠ 0 := hB.ne'
    field_simp

theorem convertAmount_round_trip_witness :
    (0 : ℚ) < sampleRates "USD" ∧ (0 : ℚ) < sampleRates "KRW" ∧
    convertAmount sampleRates (convertAmount sampleRates 7 "USD" "KRW") "KRW" "USD" = 7 := by
  have hA : (0 : ℚ) < sampleRates "USD" := by norm_num +decide [sampleRates]
  have hB : (0 : ℚ) < sampleRates "KRW" := by norm_num +decide [sampleRates]
  exact ⟨hA, hB, convertAmount_round_trip sampleRates "USD" "KRW" 7 hA hB⟩

/-- C3: the snapshot fetch is all-or-nothing.  If any single configured
currency's row cannot be located in the document, or its row yields fewer
than 5 numeric columns, the whole per-currency loop returns an error and no
rate table is produced. -/
theorem fetch_all_or_nothing (rows : List String) (code m : String) (u : ℚ)
    (hmem : (code, some m, u) ∈ CURRENCY_META)
    (hfail : (find_row rows m).isOk = false ∨
      ∃ row, find_row rows m = .ok row ∧ (parse_row_numbers row).length < 5) :
    ∃ e, buildRates rows = .error e := by
  rcases hres : buildRates rows with e | rbt
  · exact ⟨e, rfl⟩
  · exfalso
    obtain ⟨row, hrow, h5⟩ := buildRatesGo_ok_locates hres code m u hmem
    rcases hfail with hfail | ⟨row', hrow', h5'⟩
    · rw [hrow] at hfail
      exact absurd hfail (by simp [Except.isOk, Except.toBool])
    · rw [hrow] at hrow'
      injection hrow' with hr
      subst hr
      exact h5 h5'

/-- A document whose USD row misses the fifth numeric column. -/
def shortUsdRow : String :=
  "<tr><td class=\"tit\">marketindexCd=FX_USDKRW</td><td>1,350.00</td><td>1,360.00</td><td>1,340.00</td><td>1,345.00</td></tr>"

theorem fetch_all_or_nothing_witness :
    (("USD", some "FX_USDKRW", (1 : ℚ)) ∈ CURRENCY_META) ∧
    ∃ e, buildRates [shortUsdRow] = .error e := by
  refine ⟨by with_unfolding_all decide, ?_⟩
  exact fetch_all_or_nothing [shortUsdRow] "USD" "FX_USDKRW" 1
    (by with_unfolding_all decide)
    (Or.inr ⟨shortUsdRow, by with_unfolding_all rfl, by with_unfolding_all decide⟩)

/-- C6: in every rate table produced by a successful fetch, each of the five
buckets maps the pivot KRW to exactly 1.  The statement holds for every
document `rows`, so the KRW entry is never looked up from or overwritten by
the fetched document: it is the definitional head entry of each bucket. -/
theorem pivot_krw_one (rows : List String) (rbt : RatesByType)
    (h : buildRates rows = .ok rbt) (t : RateType) :
    List.lookup "KRW" (rbt.get t) = some 1 := by
  have hg := buildRatesGo_get h t
  rw [hg]
  have hempty : emptyRates.get t = [("KRW", 1)] := by cases t <;> rfl
  rw [hempty, List.singleton_append]
  simp [List.lookup]

theorem pivot_krw_one_witness :
    buildRates sampleRows = .ok sampleRbt ∧
    List.lookup "KRW" (sampleRbt.get RateType.sale) = some 1 :=
  ⟨sampleRbt_ok, pivot_krw_one sampleRows sampleRbt sampleRbt_ok RateType.sale⟩

/-- C7: the normalizer divides each of the five raw column values by the
currency's source unit, with no rounding (exact division over `ℚ`): after a
successful fetch, each configured currency's entry in bucket `t` is exactly
column `t.colIndex` of its located row divided by its source unit.  The code's
bucket names `sale`/`buy`/`sell`/`send`/`receive` are the spec's
`mid`/`cashBuy`/`cashSell`/`remitSend`/`remitReceive`.  In the spec's
scenario (`sampleRows` carries the spec's USD and JPY rows), the mid (`sale`)
rates are `USD ↦ 1350` (unit 1) and `JPY ↦ 9` (900 at 100-unit basis). -/
theorem normalize_per_unit :
    (∀ (rows : List String) (rbt : RatesByType), buildRates rows = .ok rbt →
      ∀ code m u, (code, some m, u) ∈ CURRENCY_META →
        ∃ row, find_row rows m = .ok row ∧ ∀ t : RateType,
          List.lookup code (rbt.get t) =
            some ((parse_row_numbers row).getD t.colIndex 0 / u)) ∧
    List.lookup "USD" (sampleRbt.get RateType.sale) = some 1350 ∧
    List.lookup "JPY" (sampleRbt.get RateType.sale) = some 9 := by
  refine ⟨?_, ?_, ?_⟩
  · intro rows rbt h code m u hmem
    obtain ⟨row, hrow, h5⟩ := buildRatesGo_ok_locates h code m u hmem
    refine ⟨row, hrow, fun t => ?_⟩
    have hg := buildRatesGo_get h t
    rw [hg]
    have hempty : emptyRates.get t = [("KRW", 1)] := by cases t <;> rfl
    rw [hempty, List.singleton_append]
    have hnd : (configuredOf CURRENCY_META).Nodup := by decide
    have hKRW : code ≠ "KRW" := by
      have hc := mem_configuredOf hmem
      intro hcc
      rw [hcc] at hc
      revert hc
      decide
    have hbeq : (code == "KRW") = false := beq_eq_false_iff_ne.mpr hKRW
    simp only [List.lookup, hbeq]
    exact lookup_filterMap_rowEntry hnd (buildRatesGo_ok_locates h) hmem hrow h5 t
  · with_unfolding_all decide
  · with_unfolding_all decide

theorem normalize_per_unit_witness :
    buildRates sampleRows = .ok sampleRbt ∧
    ∃ row, find_row sampleRows "FX_JPYKRW" = .ok row ∧ ∀ t : RateType,
      List.lookup "JPY" (sampleRbt.get t) =
        some ((parse_row_numbers row).getD t.colIndex 0 / 100) :=
  ⟨sampleRbt_ok,
    normalize_per_unit.1 sampleRows sampleRbt sampleRbt_ok "JPY" "FX_JPYKRW" 100
      (by with_unfolding_all decide)⟩

/-- C10: after every successful fetch, every bucket's key list is exactly
`KRW` followed by the configured currencies (those with a market code), in
`CURRENCY_META` order — so all five buckets have identical key sets, and any
currency convertible under one rate type is convertible under every rate
type. -/
theorem buckets_key_sets (rows : List String) (rbt : RatesByType)
    (h : buildRates rows = .ok rbt) (t : RateType) :
    (rbt.get t).map Prod.fst = "KRW" :: configuredOf CURRENCY_META := by
  have hg := buildRatesGo_get h t
  rw [hg]
  have hempty : emptyRates.get t = [("KRW", 1)] := by cases t <;> rfl
  rw [hempty, List.singleton_append, List.map_cons]
  rw [keys_filterMap_rowEntry (buildRatesGo_ok_locates h) t]

theorem buckets_key_sets_witness :
    buildRates sampleRows = .ok sampleRbt ∧
    (sampleRbt.get RateType.buy).map Prod.fst = "KRW" :: configuredOf CURRENCY_META ∧
    (sampleRbt.get RateType.buy).map Prod.fst = (sampleRbt.get RateType.sale).map Prod.fst :=
  ⟨sampleRbt_ok, buckets_key_sets sampleRows sampleRbt sampleRbt_ok RateType.buy,
    (buckets_key_sets sampleRows sampleRbt sampleRbt_ok RateType.buy).trans
      (buckets_key_sets sampleRows sampleRbt sampleRbt_ok RateType.sale).symm⟩

theorem leadsWith_refl : ∀ l : List Char, leadsWith l l = true := by
  intro l
  induction l with
  | nil => rfl
  | cons c cs ih => simp [leadsWith, ih]

theorem listContains_append_self (pre needle : List Char) :
    listContains needle (pre ++ needle) = true := by
  induction pre with
  | nil =>
    cases needle with
    | nil => rfl
    | cons c cs => simp [listContains, leadsWith_refl]
  | cons p pre' ih => simp [listContains, ih]

theorem strContains_append_self (pre needle : String) :
    strContains (pre ++ needle) needle = true := by
  rw [strContains, String.data_append]
  exact listContains_append_self _ _

/-- A fragment belongs to market identifier `id` when it carries the full
`marketindexCd=<id>` query parameter delimited by its closing quote. -/
def rowBelongsTo (row market_code : String) : Bool :=
  strContains row ("marketindexCd=" ++ market_code ++ "\"")

/-- A realistic row for `FX_USDKRW`, listed before a row for the identifier
`FX_USD` of which it is a proper extension. -/
def usdkrwRow : String :=
  "<tr><td class=\"tit\"><a href=\"/marketindex/exchangeDetail.naver?marketindexCd=FX_USDKRW\">USD</a></td><td>1,350.00</td></tr>"

def usdRow : String :=
  "<tr><td class=\"tit\"><a href=\"/marketindex/exchangeDetail.naver?marketindexCd=FX_USD\">USD index</a></td><td>1,300.00</td></tr>"

/-- C4 counterexample: row location uses plain substring containment, so a
requested identifier that is a prefix of another identifier present in the
document can be answered with the longer identifier's row.  Here `FX_USD` is
requested, the document holds `FX_USDKRW`'s row first and `FX_USD`'s own row
second, and location returns the `FX_USDKRW` row — a row that does not belong
to the requested identifier even though the requested identifier's own row is
present. -/
theorem find_row_prefix_bleed :
    find_row [usdkrwRow, usdRow] "FX_USD" = .ok usdkrwRow ∧
    rowBelongsTo usdkrwRow "FX_USDKRW" = true ∧
    rowBelongsTo usdkrwRow "FX_USD" = false ∧
    rowBelongsTo usdRow "FX_USD" = true ∧
    usdkrwRow ≠ usdRow := by
  refine ⟨by rfl, by decide, by decide, by decide, by decide⟩

/-- C4 amended: row location returns one of the document's fragments and only
a fragment containing both the literal token `marketindexCd=<requested id>`
and the title marker `class="tit"`; when no fragment contains both, it fails
with an error message carrying the requested identifier (both in
`_find_row` and in `_parse_market_row`).  Because the test is substring
containment, the returned fragment is the requested identifier's own row only
when no other identifier in the document extends the requested one (as is the
case for the configured, equal-length market codes); see the
counterexample. -/
theorem find_row_spec :
    (∀ rows market_code row, find_row rows market_code = .ok row →
      row ∈ rows ∧ matchesRow market_code row = true) ∧
    (∀ rows market_code, (∀ row ∈ rows, matchesRow market_code row = false) →
      find_row rows market_code = .error ("Row not found: " ++ market_code)) ∧
    (∀ market_code, strContains ("Row not found: " ++ market_code) market_code = true) ∧
    (∀ html market_code row, parse_market_row html market_code = .ok row →
      row ∈ iter_rows html ∧ matchesRow market_code row = true) ∧
    (∀ market_code,
      strContains ("환율 코드를 찾을 수 없습니다: " ++ market_code) market_code = true) := by
  refine ⟨?_, ?_, ?_, ?_, ?_⟩
  · intro rows mc row h
    rw [find_row] at h
    rcases hfind : rows.find? (fun r => matchesRow mc r) with _ | row'
    · rw [hfind] at h
      simp at h
    · rw [hfind] at h
      simp only [Except.ok.injEq] at h
      subst h
      exact ⟨List.mem_of_find?_eq_some hfind, List.find?_some hfind⟩
  · intro rows mc hall
    have hnone : rows.find? (fun r => matchesRow mc r) = none :=
      List.find?_eq_none.mpr (fun x hx => by rw [hall x hx]; simp)
    rw [find_row, hnone]
  · intro mc
    exact strContains_append_self _ _
  · intro html mc row h
    rw [parse_market_row] at h
    rcases hfind : (iter_rows html).find? (fun r => matchesRow mc r) with _ | row'
    · rw [hfind] at h
      simp at h
    · rw [hfind] at h
      simp only [Except.ok.injEq] at h
      subst h
      exact ⟨List.mem_of_find?_eq_some hfind, List.find?_some hfind⟩
  · intro mc
    exact strContains_append_self _ _

theorem find_row_spec_witness :
    usdkrwRow ∈ [usdkrwRow, usdRow] ∧ matchesRow "FX_USD" usdkrwRow = true :=
  find_row_spec.1 [usdkrwRow, usdRow] "FX_USD" usdkrwRow (by rfl)

/-- C5 counterexample: the column parser performs no sign filtering, so a
cell holding `-5` contributes the negative number `-5` to the output — the
output list is not all-positive. -/
theorem parse_row_numbers_negative :
    parse_row_numbers "<td>-5</td>" = [-5] ∧ (-5 : ℚ) < 0 := by
  constructor
  · with_unfolding_all decide
  · norm_num

/-- C5 amended: every output number comes from a cell whose stripped,
de-commaed text is neither empty nor the `"-"` placeholder and parses as a
(possibly signed) decimal — thousands separators and plain decimal points are
tolerated and empty/`"-"` cells skipped — but no positivity filtering is
performed: a negative cell such as `-5` passes through.  (Non-finite floats
cannot arise in the exact model; Python's `float` would also accept `inf`,
which the parser likewise would not reject.) -/
theorem parse_row_numbers_spec :
    (∀ row x, x ∈ parse_row_numbers row →
      ∃ raw ∈ extractCells row, cleanCell raw ≠ "" ∧ cleanCell raw ≠ "-" ∧
        parseDecimal? (cleanCell raw) = some x) ∧
    parse_row_numbers "<td> 1,350.00 </td><td>-</td><td></td>" = [1350] ∧
    parse_row_numbers "<td>-5</td>" = [-5] := by
  refine ⟨?_, by with_unfolding_all decide, by with_unfolding_all decide⟩
  intro row x hx
  rw [parse_row_numbers] at hx
  obtain ⟨raw, hmem, hf⟩ := List.mem_filterMap.mp hx
  refine ⟨raw, hmem, ?_⟩
  by_cases h1 : cleanCell raw = ""
  · simp [h1] at hf
  · by_cases h2 : cleanCell raw = "-"
    · simp [h2] at hf
    · simp only [h1, h2] at hf
      simp at hf
      exact ⟨h1, h2, by simpa [h1, h2] using hf⟩

theorem parse_row_numbers_spec_witness :
    ∃ raw ∈ extractCells "<td>2</td>", cleanCell raw ≠ "" ∧ cleanCell raw ≠ "-" ∧
      parseDecimal? (cleanCell raw) = some 2 :=
  parse_row_numbers_spec.1 "<td>2</td>" 2 (by with_unfolding_all decide)

/-- C8 counterexample: a lone decimal point is not treated as "no value yet".
With field 0's text `"."`, the parse is non-empty (the in-progress `"0."`
with amount 0), and propagation sets field 1 to the computed display
`"0.00"`, not to blank. -/
theorem lone_dot_not_empty :
    (parseEditableNumber ".").empty = false ∧
    (updateFrom sampleRates [⟨"USD", "."⟩, ⟨"KRW", "100.00"⟩] 2 0)[1]? =
      some ⟨"KRW", "0.00"⟩ ∧
    ("0.00" : String) ≠ "" := by
  refine ⟨by with_unfolding_all decide, by with_unfolding_all decide, by decide⟩

/-- C8 amended: a field whose cleaned text is empty (blank or invalid input)
is treated as "no value yet": every other active field's text is cleared to
blank and nothing is computed from a coerced zero.  A lone decimal point,
however, is parsed as the in-progress `"0."` with amount `0`: the edited
field keeps `"0."` and the other active fields display the computed
`"0.00"`. -/
theorem empty_input_clears :
    (∀ (r : String → ℚ) (fields : List Field) (a i : Nat) (src : Field),
      (fields.take a)[i]? = some src →
      (parseEditableNumber src.text).empty = true →
      ∀ j fj, j < a → j ≠ i → fields[j]? = some fj →
        (updateFrom r fields a i)[j]? = some ⟨fj.code, ""⟩) ∧
    (∀ s, trimStr (stripCommas s) = "" → (parseEditableNumber s).empty = true) ∧
    parseEditableNumber "." = ⟨false, "0.", 0⟩ ∧
    updateFrom sampleRates [⟨"USD", "."⟩, ⟨"KRW", "100.00"⟩] 2 0 =
      [⟨"USD", "0."⟩, ⟨"KRW", "0.00"⟩] := by
  refine ⟨?_, ?_, by with_unfolding_all decide, by with_unfolding_all decide⟩
  · intro r fields a i src hsrc hemp j fj hj hji hfj
    exact updateFrom_empty_clears hsrc hemp hj hji hfj
  · intro s h
    have hc : cleanEditableNumberText s = "" := by
      rw [cleanEditableNumberText, h]
      simp
    rw [parseEditableNumber, hc]
    rfl

theorem empty_input_clears_witness :
    (updateFrom sampleRates [⟨"USD", ""⟩, ⟨"KRW", "5.00"⟩] 2 0)[1]? =
      some ⟨"KRW", ""⟩ :=
  empty_input_clears.1 sampleRates [⟨"USD", ""⟩, ⟨"KRW", "5.00"⟩] 2 0 ⟨"USD", ""⟩
    (by rfl) (by rfl) 1 ⟨"KRW", "5.00"⟩ (by decide) (by decide) (by rfl)

/-- C9 counterexample: the claim's selection-preserving branch does not
always re-propagate the last-edited field's value.  With two active fields,
a stale `lastEditedIndex = 4` (the previously edited fifth field is hidden
after removals), and a currency change on field 1 (not the last-edited
field), the code propagates from `min(lastEditedIndex, activeCount-1) = 1` —
the changed field itself.  Field 0 becomes `"5.56"` (5 EUR at the sample
rates), while re-propagating the last-edited field's value `7.00` KRW would
display `"0.01"`, and leaving field 0 untouched would keep `"100.00"`. -/
theorem change_currency_clamp_bleed :
    changeCurrency sampleRates
        [⟨"USD", "100.00"⟩, ⟨"KRW", "5.00"⟩, ⟨"KRW", "0.00"⟩, ⟨"KRW", "0.00"⟩,
          ⟨"KRW", "7.00"⟩] 2 4 1 "EUR" =
      [⟨"USD", "5.56"⟩, ⟨"EUR", "5.00"⟩, ⟨"KRW", "0.00"⟩, ⟨"KRW", "0.00"⟩,
        ⟨"KRW", "7.00"⟩] ∧
    toInputValue (convertAmount sampleRates
      (parseEditableNumber "7.00").number "KRW" "USD") = "0.01" ∧
    ("5.56" : String) ≠ "0.01" ∧ ("5.56" : String) ≠ "100.00" := by
  refine ⟨by with_unfolding_all decide, by with_unfolding_all decide, by decide, by decide⟩

/-- C9 amended: on a currency change of active field `i` from `old` (the
field's previous code) to `new`: if `i` is the last-edited index, the field's
amount is recomputed as `amount * r[old] / r[new]` (displayed with the usual
two-decimal rounding) and then propagated, every other active field showing
the conversion of the displayed (hundredth-rounded) new amount from `new` to
its own currency.  If `i` is not the last-edited index, the field's own
amount is not value-preserved; propagation re-runs from the source index
`min(lastEditedIndex, activeCount - 1)` — the last-edited field when it is
still active, otherwise the last active field (possibly the changed field
itself, see the counterexample) — and every other active field (the changed
field included, when it is not the source) receives the conversion of the
source's value. -/
theorem change_currency_spec (r : String → ℚ) (fields : List Field)
    (a last i : Nat) (new : String) (field : Field)
    (hfi : fields[i]? = some field) (hia : i < a) :
    (i = last →
      (changeCurrency r fields a last i new)[i]? = some ⟨new,
        toInputValue ((parseEditableNumber field.text).number * r field.code / r new)⟩ ∧
      ∀ j fj, j < a → j ≠ i → fields[j]? = some fj →
        (changeCurrency r fields a last i new)[j]? = some ⟨fj.code,
          toInputValue (convertAmount r
            (displayRound ((parseEditableNumber field.text).number * r field.code / r new))
            new fj.code)⟩) ∧
    (i ≠ last →
      ∀ src, ((fields.set i ⟨new, field.text⟩).take a)[min last (a - 1)]? = some src →
        (parseEditableNumber src.text).empty = false →
        ∀ j fj, j < a → j ≠ min last (a - 1) →
          (fields.set i ⟨new, field.text⟩)[j]? = some fj →
          (changeCurrency r fields a last i new)[j]? = some ⟨fj.code,
            toInputValue (convertAmount r (parseEditableNumber src.text).number
              src.code fj.code)⟩) := by
  have hlen : i < fields.length := by
    by_contra hc
    rw [List.getElem?_eq_none (by omega)] at hfi
    exact Option.noConfusion hfi
  constructor
  · intro hlast
    have hcc : changeCurrency r fields a last i new =
        updateFrom r (fields.set i ⟨new,
          toInputValue ((parseEditableNumber field.text).number * r field.code / r new)⟩)
          a i := by
      simp only [changeCurrency, hfi]
      rw [if_pos hlast]
    have hsrc2 : ((fields.set i ⟨new,
        toInputValue ((parseEditableNumber field.text).number * r field.code / r new)⟩).take
          a)[i]? = some ⟨new,
        toInputValue ((parseEditableNumber field.text).number * r field.code / r new)⟩ := by
      rw [List.getElem?_take, if_pos hia, List.getElem?_set]
      simp [hlen]
    obtain ⟨hemp, hnum, hdot⟩ :=
      parse_display_facts ((parseEditableNumber field.text).number * r field.code / r new)
    constructor
    · rw [hcc, updateFrom_source_text hsrc2 hemp]
      simp only [hdot, Bool.false_eq_true, if_false, hnum, toInputValue_displayRound]
    · intro j fj hj hji hfj
      have hfj2 : (fields.set i ⟨new,
          toInputValue ((parseEditableNumber field.text).number * r field.code / r new)⟩)[j]? =
          some fj := by
        rw [List.getElem?_set, if_neg (Ne.symm hji)]
        exact hfj
      rw [hcc, updateFrom_converts hsrc2 hemp hj hji hfj2, hnum]
  · intro hne src hsrc hemp j fj hj hjs hfj
    have hcc : changeCurrency r fields a last i new =
        updateFrom r (fields.set i ⟨new, field.text⟩) a (min last (a - 1)) := by
      simp only [changeCurrency, hfi]
      rw [if_neg hne]
    rw [hcc]
    exact updateFrom_converts hsrc hemp hj hjs hfj

theorem change_currency_spec_witness :
    (changeCurrency sampleRates [⟨"USD", "100.00"⟩, ⟨"KRW", "0.00"⟩] 2 0 0 "EUR")[0]? =
      some ⟨"EUR", toInputValue ((parseEditableNumber "100.00").number *
        sampleRates "USD" / sampleRates "EUR")⟩ :=
  ((change_currency_spec sampleRates [⟨"USD", "100.00"⟩, ⟨"KRW", "0.00"⟩] 2 0 0 "EUR"
      ⟨"USD", "100.00"⟩ (by rfl) (by decide)).1 rfl).1

end TravelFx
